import Mathlib

/-!
Shallow embedding of the CovertChannelsLab repository (two covert channels:
a storage channel over the IP_ID header field, and a timing channel over
inter-arrival times), together with theorems settling the specification
claims about the codecs, stream decoders and finalization reports.

Characters are modelled as their code points (Nat); timestamps, inter-arrival
times and elapsed durations as rationals.
-/

namespace Covert

/-! ## Storage channel: symbol codec (storage_sender.py / storage_receiver.py) -/

/-- A byte is a printable ASCII character, mirroring `32 <= byte_val <= 126`. -/
def printable (b : Nat) : Bool := 32 ≤ b && b ≤ 126

/-- The byte-scan loop body of `StorageChannelReceiver.packet_callback`
(`for i in range(bytes_per_packet - 1, -1, -1)` over extracted bytes):
a zero byte breaks out of the loop, a printable byte is appended as a
character, any other byte is skipped. -/
def decodeBytes : List Nat → List Nat
  | [] => []
  | b :: rest =>
    if b = 0 then []
    else if printable b then b :: decodeBytes rest
    else decodeBytes rest

/-- The two bytes of a 16-bit word, high byte first, mirroring
`(encoded_value >> (i * 8)) & 0xFF` for `i = 1, 0`. -/
def wordBytes (w : Nat) : List Nat := [(w / 256) % 256, w % 256]

/-- Characters produced from one 16-bit word by the receiver's byte loop. -/
def decode_word (w : Nat) : List Nat := decodeBytes (wordBytes w)

/-- `chunk.ljust(bytes_per_packet, '\x00')` over 2-character chunks of the
message: split into pairs, padding a trailing lone character with a null. -/
def chunkPairs : List Nat → List (Nat × Nat)
  | [] => []
  | [c] => [(c, 0)]
  | c1 :: c2 :: rest => (c1, c2) :: chunkPairs rest

/-- `encoded_value = (encoded_value << 8) | ord(char)` over the two chars of a
chunk: pack big-endian, first char in the high byte. -/
def packWord (p : Nat × Nat) : Nat := p.1 * 256 + p.2

/-- The word sequence produced by `send_storage_channel` for a message
(the per-packet encoding loop, excluding the EOF markers). -/
def encode (msg : List Nat) : List Nat := (chunkPairs msg).map packWord

/-! ## Storage channel: stream decoder (StorageChannelReceiver) -/

/-- An observation delivered to `packet_callback`: the IP_ID word and the TTL
of a packet that already passed the src/dst BPF filter. -/
structure Obs where
  word : Nat
  ttl : Nat
deriving DecidableEq, Repr

/-- The mutable per-session fields of `StorageChannelReceiver`.
`started` records whether `start_time` is set (`start_time is None` ↔
`started = false`); the numeric time value itself is irrelevant to decoding
and is supplied separately at finalization as an elapsed duration. -/
structure StorageState where
  decoded_bytes : List Nat
  started : Bool
  packet_count : Nat
  last_packet_id : Option Nat
  system_packets_filtered : Nat
deriving DecidableEq, Repr

/-- Session state at construction time (`__init__`). -/
def initStorage : StorageState :=
  { decoded_bytes := []
    started := false
    packet_count := 0
    last_packet_id := none
    system_packets_filtered := 0 }

/-- The EOF sentinel `self.eof_threshold = 0xFFFF`. -/
def eof_threshold : Nat := 0xFFFF

/-- One step of `StorageChannelReceiver.packet_callback` for a packet that
matched the BPF filter: TTL filtering, duplicate suppression, start-of-timer,
EOF check, then byte decoding. `expected_ttl` is the receiver's configured
TTL. -/
def packet_callback (expected_ttl : Nat) (s : StorageState) (o : Obs) :
    StorageState :=
  if o.ttl ≠ expected_ttl then
    { s with system_packets_filtered := s.system_packets_filtered + 1 }
  else if some o.word = s.last_packet_id then
    s
  else
    let s1 : StorageState := { s with last_packet_id := some o.word, started := true }
    if o.word = eof_threshold then
      s1
    else
      { s1 with
        decoded_bytes := s1.decoded_bytes ++ decode_word o.word
        packet_count := s1.packet_count + 1 }

/-- Folding `packet_callback` over an observation stream: `sniff` delivers the
filtered packets one at a time and never stops on its own (no `stop_filter`
and no timeout are passed), so every observation of the stream is processed. -/
def runStream (expected_ttl : Nat) (s : StorageState) (obs : List Obs) :
    StorageState :=
  obs.foldl (packet_callback expected_ttl) s

/-- The statistics block printed by `print_results` when data was received. -/
structure StorageReport where
  message : List Nat
  length : Nat
  packets : Nat
  filtered : Nat
  elapsed : ℚ
  bps : ℚ
deriving DecidableEq, Repr

/-- Outcome of `StorageChannelReceiver.print_results`: either the
"No packets received" early return (when `start_time is None`) or the full
statistics block. -/
inductive StorageResult
  | noData
  | stats (r : StorageReport)
deriving DecidableEq, Repr

/-- `StorageChannelReceiver.print_results`, with `elapsed` standing for
`time.time() - self.start_time`. `bits_decoded = len(self.decoded_bytes) * 8`
and `bps = bits_decoded / elapsed if elapsed > 0 else 0`. -/
def print_results (s : StorageState) (elapsed : ℚ) : StorageResult :=
  if s.started = false then
    StorageResult.noData
  else
    StorageResult.stats
      { message := s.decoded_bytes
        length := s.decoded_bytes.length
        packets := s.packet_count
        filtered := s.system_packets_filtered
        elapsed := elapsed
        bps := if elapsed > 0 then (s.decoded_bytes.length * 8 : ℚ) / elapsed else 0 }

/-- How a `StorageChannelReceiver.run` session ends: `sniff` raising
`KeyboardInterrupt`, `PermissionError`, or any other exception. -/
inductive RunEnding
  | interrupt
  | permissionDenied
  | ioFailure
deriving DecidableEq, Repr

/-- `StorageChannelReceiver.run`: each of the three `except` clauses around
`sniff` prints a diagnostic and then calls `self.print_results()`; `some`
means the function returned normally after producing that finalization
outcome, `none` would mean an uncaught propagated exception. -/
def storage_run_finalize (s : StorageState) (e : RunEnding) (elapsed : ℚ) :
    Option StorageResult :=
  match e with
  | RunEnding.interrupt => some (print_results s elapsed)
  | RunEnding.permissionDenied => some (print_results s elapsed)
  | RunEnding.ioFailure => some (print_results s elapsed)

/-! ## Timing channel: receiver (timing_receiver.py) -/

/-- A datagram arriving at the timing receiver's socket: either the literal
`b'EOF'` marker payload or any other (data) payload, with its arrival
timestamp `time.time()`. -/
inductive TimingEvent
  | data (t : ℚ)
  | eofMarker (t : ℚ)
deriving DecidableEq, Repr

/-- The loop-local state of `receive_timing_channel` (bits, logged IATs and
their bit labels, the previous arrival time, the start time, the EOF-marker
counter, and the packet counter). -/
structure TimingState where
  bits : List Bool
  iats : List ℚ
  bit_labels : List Bool
  prev_time : Option ℚ
  start_time : Option ℚ
  eof_count : Nat
  packets_received : Nat
deriving DecidableEq, Repr

/-- Loop state before the first datagram arrives. -/
def initTiming : TimingState :=
  { bits := []
    iats := []
    bit_labels := []
    prev_time := none
    start_time := none
    eof_count := 0
    packets_received := 0 }

/-- One iteration of the `while True` receive loop of
`receive_timing_channel` for one datagram: an `EOF` payload increments
`eof_count` (the `break` when it reaches 2 lives in `timing_run`); the first
data arrival only records the clock; every later data arrival yields
`iat = current_time - prev_time` and the bit `'1' if iat > threshold else '0'`. -/
def timing_step (threshold : ℚ) (s : TimingState) (e : TimingEvent) :
    TimingState :=
  match e with
  | TimingEvent.eofMarker _ =>
    { s with
      packets_received := s.packets_received + 1
      eof_count := s.eof_count + 1 }
  | TimingEvent.data t =>
    let s1 : TimingState := { s with packets_received := s.packets_received + 1 }
    match s1.start_time with
    | none => { s1 with start_time := some t, prev_time := some t }
    | some _ =>
      let iat : ℚ := t - (s1.prev_time.getD 0)
      let bit : Bool := iat > threshold
      { s1 with
        bits := s1.bits ++ [bit]
        iats := s1.iats ++ [iat]
        bit_labels := s1.bit_labels ++ [bit]
        prev_time := some t }

/-- The receive loop over a stream of datagrams: it exits (`break`) as soon
as the EOF counter reaches 2, leaving later datagrams unread; if the listed
stream is exhausted first, the real loop would still be blocked in
`recvfrom`, so the state reached so far is returned. -/
def timing_run (threshold : ℚ) : TimingState → List TimingEvent → TimingState
  | s, [] => s
  | s, e :: rest =>
    let s1 := timing_step threshold s e
    if 2 ≤ s1.eof_count then s1 else timing_run threshold s1 rest

/-- `[bits_str[i:i+8] for i in range(0, len(bits_str), 8)]`: consecutive
8-element chunks, the last possibly shorter. -/
def chunk8 : List Bool → List (List Bool)
  | [] => []
  | b :: rest => ((b :: rest).take 8) :: chunk8 ((b :: rest).drop 8)
termination_by l => l.length
decreasing_by
  simp [List.length_drop]
  omega

/-- `int(c, 2)` for a chunk of bits, most significant bit first. -/
def bitsVal (c : List Bool) : Nat :=
  c.foldl (fun acc b => 2 * acc + (if b then 1 else 0)) 0

/-- `''.join(chr(int(c, 2)) for c in chars if len(c) == 8)`: every full
8-bit chunk becomes the character with that binary value; a short trailing
chunk is discarded. -/
def bits_to_message (bits : List Bool) : List Nat :=
  ((chunk8 bits).filter (fun c => c.length = 8)).map bitsVal

/-- The final report block of `receive_timing_channel` (message, bit count,
packet count, elapsed, rate). The IAT statistics also printed there are not
needed by any claim. -/
structure TimingReport where
  message : List Nat
  bitCount : Nat
  packets : Nat
  elapsed : ℚ
  bps : ℚ
deriving DecidableEq, Repr

/-- Finalization of `receive_timing_channel` after the loop exits, with `now`
standing for the `time.time()` call in `elapsed = time.time() - start_time`.
When `start_time` is still `None` (only EOF markers arrived) that subtraction
raises an uncaught `TypeError`, modelled as `none`: the function crashes and
no report is produced. -/
def timing_finalize (s : TimingState) (now : ℚ) : Option TimingReport :=
  match s.start_time with
  | none => none
  | some st =>
    let elapsed : ℚ := now - st
    some
      { message := bits_to_message s.bits
        bitCount := s.bits.length
        packets := s.packets_received
        elapsed := elapsed
        bps := if elapsed > 0 then (s.bits.length : ℚ) / elapsed else 0 }

/-- A session of `receive_timing_channel` in which the run may be cut short:
the function body has no `try`/`except` around the receive loop, so an
operator interrupt or a socket error raised at any point propagates out of
the function before the report code runs. `none` models that uncaught
propagation; `some` is the report of a loop that exited via the EOF `break`.
The stream is the sequence of loop events: datagrams interleaved with an
optional raised-exception point. -/
inductive TimingNetEvent
  | packet (e : TimingEvent)
  | raisedInterrupt
  | raisedIOError
deriving DecidableEq, Repr

/-- Run the receive loop over a stream that may contain a raised exception;
an exception reached before the EOF `break` aborts the whole function with
no finalization, and a stream exhausted without two EOF markers leaves the
loop blocked in `recvfrom`, never reaching the report code either. -/
def timing_session (threshold : ℚ) (now : ℚ) (events : List TimingNetEvent) :
    Option TimingReport :=
  go initTiming events
where
  go : TimingState → List TimingNetEvent → Option TimingReport
    | _, [] => none
    | _, TimingNetEvent.raisedInterrupt :: _ => none
    | _, TimingNetEvent.raisedIOError :: _ => none
    | s, TimingNetEvent.packet e :: rest =>
      let s1 := timing_step threshold s e
      if 2 ≤ s1.eof_count then timing_finalize s1 now else go s1 rest

/-! ## Helper lemmas -/

/-- Every character produced by the byte-scan loop is printable ASCII. -/
theorem decodeBytes_mem_printable :
    ∀ (l : List Nat) (c : Nat), c ∈ decodeBytes l → 32 ≤ c ∧ c ≤ 126 := by
  intro l
  induction l with
  | nil => intro c hc; simp [decodeBytes] at hc
  | cons b rest ih =>
    intro c hc
    by_cases hb0 : b = 0
    · simp [decodeBytes, hb0] at hc
    · by_cases hbp : printable b
      · simp [decodeBytes, hb0, hbp] at hc
        rcases hc with hc | hc
        · subst hc
          have := hbp
          simp [printable] at this
          omega
        · exact ih c hc
      · simp [decodeBytes, hb0, hbp] at hc
        exact ih c hc

/-- Decoding a word packed from two printable characters recovers both. -/
theorem decode_word_packWord (c1 c2 : Nat)
    (h1 : 32 ≤ c1) (h1b : c1 ≤ 126) (h2 : 32 ≤ c2) (h2b : c2 ≤ 126) :
    decode_word (packWord (c1, c2)) = [c1, c2] := by
  have hw : wordBytes (packWord (c1, c2)) = [c1, c2] := by
    simp only [wordBytes, packWord, List.cons.injEq, and_true]
    constructor <;> omega
  have hc1 : ¬ c1 = 0 := by omega
  have hc2 : ¬ c2 = 0 := by omega
  have hp1 : printable c1 = true := by
    simp only [printable, Bool.and_eq_true, decide_eq_true_eq]
    omega
  have hp2 : printable c2 = true := by
    simp only [printable, Bool.and_eq_true, decide_eq_true_eq]
    omega
  rw [decode_word, hw]
  simp [decodeBytes, hc1, hc2, hp1, hp2]

/-- Induction form of the round trip over two characters at a time. -/
theorem roundtrip_aux :
    ∀ (msg : List Nat), (∀ c ∈ msg, 32 ≤ c ∧ c ≤ 126) → msg.length % 2 = 0 →
      ((encode msg).map decode_word).flatten = msg
  | [], _, _ => rfl
  | [_], _, he => by simp at he
  | c1 :: c2 :: rest, hp, he => by
    have h1 := hp c1 (by simp)
    have h2 := hp c2 (by simp)
    have he' : rest.length % 2 = 0 := by simp at he; omega
    have ih := roundtrip_aux rest
      (fun c hc => hp c (by simp [hc])) he'
    simp only [encode, chunkPairs, List.map_cons, List.flatten_cons,
      decode_word_packWord c1 c2 h1.1 h1.2 h2.1 h2.2]
    simpa [encode] using ih

/-! ## Claims -/

/-- Claim C6: `decode_word` scans the two byte positions high-to-low; a zero
byte stops processing of the whole word (discarding the remaining lower byte
even if printable), a byte in [32, 126] is appended, any other byte is dropped
while scanning continues; with the four concrete examples from the spec. -/
theorem decode_word_scan_rule :
    (∀ w : Nat,
      decode_word w =
        if (w / 256) % 256 = 0 then []
        else (if printable ((w / 256) % 256) then [(w / 256) % 256] else []) ++
          (if w % 256 = 0 then []
           else if printable (w % 256) then [w % 256] else []))
    ∧ decode_word 0x4100 = [65]
    ∧ decode_word 0x0041 = []
    ∧ decode_word 0x4142 = [65, 66]
    ∧ decode_word 0x0141 = [65] := by
  refine ⟨?_, by decide, by decide, by decide, by decide⟩
  intro w
  by_cases h1 : (w / 256) % 256 = 0 <;>
    by_cases h2 : printable ((w / 256) % 256) <;>
      by_cases h3 : w % 256 = 0 <;>
        by_cases h4 : printable (w % 256) <;>
          simp [decode_word, wordBytes, decodeBytes, h1, h2, h3, h4]

/-- Claim C7: for a message of printable ASCII (32–126), even length, with no
embedded null byte, applying `decode_word` in order to the words of
`encode message` and concatenating reconstructs the message exactly. -/
theorem storage_roundtrip (msg : List Nat)
    (hprint : ∀ c ∈ msg, 32 ≤ c ∧ c ≤ 126)
    (hnull : ∀ c ∈ msg, c ≠ 0)
    (heven : msg.length % 2 = 0) :
    ((encode msg).map decode_word).flatten = msg :=
  roundtrip_aux msg hprint heven

/-- Witness for C7 at the concrete message "Hi" = [72, 105]. -/
theorem storage_roundtrip_witness :
    ((encode [72, 105]).map decode_word).flatten = [72, 105] :=
  storage_roundtrip [72, 105] (by decide) (by decide) (by decide)

/-- Claim C8: an accepted-TTL observation whose word equals the last accepted
word is ignored entirely (the state, hence message, counter, and everything
else, is unchanged); when no word was accepted yet the observation is never
suppressed (its word is recorded as last accepted); and the spec's concrete
stream decodes to "ABCD", not "ABABCD". -/
theorem storage_duplicate_suppression :
    (∀ (ttl : Nat) (s : StorageState) (o : Obs),
        o.ttl = ttl → s.last_packet_id = some o.word →
        packet_callback ttl s o = s)
    ∧ (∀ (ttl : Nat) (s : StorageState) (o : Obs),
        o.ttl = ttl → s.last_packet_id = none →
        (packet_callback ttl s o).last_packet_id = some o.word)
    ∧ (runStream 42 initStorage
        [⟨0x4142, 42⟩, ⟨0x4142, 42⟩, ⟨0x4344, 42⟩]).decoded_bytes
        = [65, 66, 67, 68] := by
  refine ⟨?_, ?_, by decide⟩
  · intro ttl s o httl hdup
    simp [packet_callback, httl, hdup]
  · intro ttl s o httl hnone
    by_cases heof : o.word = eof_threshold <;>
      simp [packet_callback, httl, hnone, heof]

/-- Witness for C8: the second observation of the spec's stream is a
duplicate and leaves the state unchanged. -/
theorem storage_duplicate_suppression_witness :
    packet_callback 42 (runStream 42 initStorage [⟨0x4142, 42⟩]) ⟨0x4142, 42⟩
      = runStream 42 initStorage [⟨0x4142, 42⟩] :=
  storage_duplicate_suppression.1 42 _ ⟨0x4142, 42⟩ rfl (by decide)

/-- Claim C10 (implicit): the stream decoder never decodes two equal word
values in a row — re-delivering the observation just processed (same word,
matching TTL) never changes the state again — so a payload with two adjacent
identical chunks, such as "abab" (two equal words 0x6162), loses the second
word even over a lossless, duplicate-free transport: the decoder yields "ab",
not "abab". -/
theorem storage_adjacent_equal_words_lost :
    (∀ (ttl : Nat) (s : StorageState) (o : Obs), o.ttl = ttl →
        packet_callback ttl (packet_callback ttl s o) o
          = packet_callback ttl s o)
    ∧ (runStream 42 initStorage
        ((encode [97, 98, 97, 98]).map (fun w => ⟨w, 42⟩))).decoded_bytes
        = [97, 98]
    ∧ (runStream 42 initStorage
        ((encode [97, 98, 97, 98]).map (fun w => ⟨w, 42⟩))).decoded_bytes
        ≠ [97, 98, 97, 98] := by
  refine ⟨?_, by decide, by decide⟩
  intro ttl s o httl
  by_cases hdup : (some o.word = s.last_packet_id)
  · have h1 : packet_callback ttl s o = s := by
      simp [packet_callback, httl, hdup]
    rw [h1, h1]
  · by_cases heof : o.word = eof_threshold
    · have h1 : packet_callback ttl s o
          = { s with last_packet_id := some o.word, started := true } := by
        have hdup1 := hdup
        rw [heof] at hdup1
        simp [packet_callback, httl, hdup1, heof]
      rw [h1]
      simp [packet_callback, httl]
    · have h1 : packet_callback ttl s o
          = { s with
                last_packet_id := some o.word
                started := true
                decoded_bytes := s.decoded_bytes ++ decode_word o.word
                packet_count := s.packet_count + 1 } := by
        simp [packet_callback, httl, hdup, heof]
      rw [h1]
      simp [packet_callback, httl]

/-- Witness for C10: re-delivering the first observation of a session leaves
the state it produced unchanged. -/
theorem storage_adjacent_equal_words_lost_witness :
    packet_callback 42 (packet_callback 42 initStorage ⟨0x6162, 42⟩)
        ⟨0x6162, 42⟩
      = packet_callback 42 initStorage ⟨0x6162, 42⟩ :=
  storage_adjacent_equal_words_lost.1 42 initStorage ⟨0x6162, 42⟩ rfl

/-- Counterexample to claim C5: after the EOF word 0xFFFF is accepted the
session keeps processing — a subsequent accepted observation with a different
word still extends the message (here from "AB" to "ABCD") and increments the
packet counter, so no DONE state is ever entered. -/
theorem storage_eof_counterexample :
    (runStream 42 initStorage [⟨0x4142, 42⟩, ⟨0xFFFF, 42⟩]).decoded_bytes
        = [65, 66]
    ∧ (runStream 42 initStorage [⟨0x4142, 42⟩, ⟨0xFFFF, 42⟩]).packet_count = 1
    ∧ (runStream 42 initStorage
        [⟨0x4142, 42⟩, ⟨0xFFFF, 42⟩, ⟨0x4344, 42⟩]).decoded_bytes
        = [65, 66, 67, 68]
    ∧ (runStream 42 initStorage
        [⟨0x4142, 42⟩, ⟨0xFFFF, 42⟩, ⟨0x4344, 42⟩]).packet_count = 2 := by
  exact ⟨by decide, by decide, by decide, by decide⟩

/-- Claim C5 as amended: an accepted observation carrying the EOF word 0xFFFF
contributes no characters and does not increment the packet counter — it only
records 0xFFFF as the last accepted word (and starts the timer); but the
session does not transition to a terminal state: a subsequent matching-TTL
observation with any other word is decoded normally, extending the message
and incrementing the counter. -/
theorem storage_eof_no_done :
    (∀ (ttl : Nat) (s : StorageState) (o : Obs),
        o.ttl = ttl → o.word = 0xFFFF → s.last_packet_id ≠ some 0xFFFF →
        packet_callback ttl s o
          = { s with last_packet_id := some 0xFFFF, started := true })
    ∧ (∀ (ttl : Nat) (s : StorageState) (o : Obs),
        o.ttl = ttl → s.last_packet_id = some 0xFFFF → o.word ≠ 0xFFFF →
        packet_callback ttl s o
          = { s with
                last_packet_id := some o.word
                started := true
                decoded_bytes := s.decoded_bytes ++ decode_word o.word
                packet_count := s.packet_count + 1 }) := by
  constructor
  · intro ttl s o httl heof hlast
    have hdup : ¬ (some (0xFFFF : Nat) = s.last_packet_id) :=
      fun h => hlast h.symm
    simp [packet_callback, httl, hdup, heof, eof_threshold]
  · intro ttl s o httl hlast hword
    have hdup : ¬ (some o.word = s.last_packet_id) := by
      rw [hlast]
      simp [hword]
    simp [packet_callback, httl, hdup, hword, eof_threshold]

/-- Witness for the amended C5: the EOF observation after "AB" only records
the sentinel, and a later word is still decoded. -/
theorem storage_eof_no_done_witness :
    packet_callback 42 (runStream 42 initStorage [⟨0x4142, 42⟩]) ⟨0xFFFF, 42⟩
      = { runStream 42 initStorage [⟨0x4142, 42⟩] with
            last_packet_id := some 0xFFFF, started := true }
    ∧ packet_callback 42
        (runStream 42 initStorage [⟨0x4142, 42⟩, ⟨0xFFFF, 42⟩]) ⟨0x4344, 42⟩
      = { runStream 42 initStorage [⟨0x4142, 42⟩, ⟨0xFFFF, 42⟩] with
            last_packet_id := some 0x4344
            started := true
            decoded_bytes :=
              (runStream 42 initStorage
                [⟨0x4142, 42⟩, ⟨0xFFFF, 42⟩]).decoded_bytes
                ++ decode_word 0x4344
            packet_count :=
              (runStream 42 initStorage
                [⟨0x4142, 42⟩, ⟨0xFFFF, 42⟩]).packet_count + 1 } :=
  ⟨storage_eof_no_done.1 42 _ ⟨0xFFFF, 42⟩ rfl rfl (by decide),
   storage_eof_no_done.2 42 _ ⟨0x4344, 42⟩ rfl (by decide) (by decide)⟩

/-- Counterexample to claim C1: the word 0x4100 decodes to the single
character 'A' (null-truncated), so the finalized session reports
`bps = 1 character × 8 / 1 s = 8`, not `1 packet × 16 / 1 s = 16`: the
storage throughput is not the packet counter times 16 over elapsed. -/
theorem storage_throughput_counterexample :
    print_results (runStream 42 initStorage [⟨0x4100, 42⟩]) 1
      = StorageResult.stats
          { message := [65], length := 1, packets := 1, filtered := 0,
            elapsed := 1, bps := 8 }
    ∧ ((8 : ℚ) ≠ (1 * 16 : ℚ) / 1) := by
  constructor
  · have hs : runStream 42 initStorage [⟨0x4100, 42⟩]
        = { decoded_bytes := [65], started := true, packet_count := 1,
            last_packet_id := some 0x4100, system_packets_filtered := 0 } := by
      decide
    rw [hs]
    simp [print_results]
  · norm_num

/-- Claim C1 as amended: a finalized storage session reports
`throughput = decoded characters × 8 / elapsed` (0 when elapsed ≤ 0) — it
depends on how many characters the words yielded, not on the packet counter;
a finalized timing session reports `throughput = decoded bits / elapsed`
(0 when elapsed ≤ 0). -/
theorem session_throughput :
    (∀ (ttl : Nat) (obs : List Obs) (elapsed : ℚ) (r : StorageReport),
        print_results (runStream ttl initStorage obs) elapsed
          = StorageResult.stats r →
        r.bps = if elapsed > 0 then (r.length * 8 : ℚ) / elapsed else 0)
    ∧ (∀ (th now : ℚ) (events : List TimingEvent) (r : TimingReport),
        timing_finalize (timing_run th initTiming events) now = some r →
        r.bps = if r.elapsed > 0 then (r.bitCount : ℚ) / r.elapsed else 0) := by
  constructor
  · intro ttl obs elapsed r hr
    by_cases hs : (runStream ttl initStorage obs).started = false
    · simp [print_results, hs] at hr
    · simp [print_results, hs] at hr
      subst hr
      simp
  · intro th now events r hr
    unfold timing_finalize at hr
    rcases hst : (timing_run th initTiming events).start_time with _ | st
    · rw [hst] at hr
      simp at hr
    · rw [hst] at hr
      simp at hr
      subst hr
      simp

/-- Witness for the amended C1: a concrete one-word session with elapsed 2. -/
theorem session_throughput_witness :
    ({ message := [65, 66], length := 2, packets := 1, filtered := 0,
       elapsed := 2, bps := 8 } : StorageReport).bps
      = if (2 : ℚ) > 0
        then (({ message := [65, 66], length := 2, packets := 1, filtered := 0,
                 elapsed := 2, bps := 8 } : StorageReport).length * 8 : ℚ) / 2
        else 0 :=
  session_throughput.1 42 [⟨0x4142, 42⟩] 2
    { message := [65, 66], length := 2, packets := 1, filtered := 0,
      elapsed := 2, bps := 8 }
    (by
      have hs : runStream 42 initStorage [⟨0x4142, 42⟩]
          = { decoded_bytes := [65, 66], started := true, packet_count := 1,
              last_packet_id := some 0x4142,
              system_packets_filtered := 0 } := by
        decide
      rw [hs]
      simp [print_results])

/-- Every character decoded by one `packet_callback` step is either already
in the buffer or produced by `decode_word`. -/
theorem packet_callback_decoded_bytes (ttl : Nat) (s : StorageState) (o : Obs) :
    (packet_callback ttl s o).decoded_bytes = s.decoded_bytes
    ∨ (packet_callback ttl s o).decoded_bytes
        = s.decoded_bytes ++ decode_word o.word := by
  by_cases httl : o.ttl ≠ ttl
  · left; simp [packet_callback, httl]
  · by_cases hdup : some o.word = s.last_packet_id
    · left; simp [packet_callback, httl, hdup]
    · by_cases heof : o.word = eof_threshold
      · left
        rw [heof] at hdup
        simp [packet_callback, httl, hdup, heof]
      · right; simp [packet_callback, httl, hdup, heof]

/-- The printable-message invariant is preserved along any stream. -/
theorem runStream_printable :
    ∀ (obs : List Obs) (ttl : Nat) (s : StorageState),
      (∀ c ∈ s.decoded_bytes, 32 ≤ c ∧ c ≤ 126) →
      ∀ c ∈ (runStream ttl s obs).decoded_bytes, 32 ≤ c ∧ c ≤ 126 := by
  intro obs
  induction obs with
  | nil => intro ttl s hs c hc; exact hs c hc
  | cons o rest ih =>
    intro ttl s hs c hc
    have hstep : ∀ c ∈ (packet_callback ttl s o).decoded_bytes,
        32 ≤ c ∧ c ≤ 126 := by
      intro c' hc'
      rcases packet_callback_decoded_bytes ttl s o with h | h
      · exact hs c' (h ▸ hc')
      · rw [h, List.mem_append] at hc'
        rcases hc' with hc' | hc'
        · exact hs c' hc'
        · exact decodeBytes_mem_printable _ c' hc'
    exact ih ttl (packet_callback ttl s o) hstep c hc

/-- `bitsVal` of a chunk is bounded by 2 to its length (helper for C2). -/
theorem bitsVal_lt : ∀ (c : List Bool), bitsVal c < 2 ^ c.length := by
  have aux : ∀ (l : List Bool) (acc : Nat),
      l.foldl (fun a b => 2 * a + (if b then 1 else 0)) acc
        < (acc + 1) * 2 ^ l.length := by
    intro l
    induction l with
    | nil => intro acc; simp
    | cons b rest ih =>
      intro acc
      have h := ih (2 * acc + (if b then 1 else 0))
      have hb : (if b then 1 else 0) ≤ 1 := by cases b <;> simp
      calc (b :: rest).foldl (fun a b => 2 * a + (if b then 1 else 0)) acc
          = rest.foldl (fun a b => 2 * a + (if b then 1 else 0))
              (2 * acc + (if b then 1 else 0)) := by simp
        _ < (2 * acc + (if b then 1 else 0) + 1) * 2 ^ rest.length := h
        _ ≤ (acc + 1) * 2 ^ (b :: rest).length := by
            simp only [List.length_cons, pow_succ]
            nlinarith [Nat.pos_pow_of_pos rest.length (by norm_num : 0 < 2)]
  intro c
  simpa using aux c 0

/-- Counterexample to claim C2: a timing session of nine equally spaced data
arrivals (IAT 1 ≤ threshold 2, so eight 0-bits) followed by two EOF markers
finalizes with message [0]: the character `chr 0` is not printable ASCII. -/
theorem timing_printable_counterexample :
    timing_session 2 9
      [TimingNetEvent.packet (TimingEvent.data 0),
       TimingNetEvent.packet (TimingEvent.data 1),
       TimingNetEvent.packet (TimingEvent.data 2),
       TimingNetEvent.packet (TimingEvent.data 3),
       TimingNetEvent.packet (TimingEvent.data 4),
       TimingNetEvent.packet (TimingEvent.data 5),
       TimingNetEvent.packet (TimingEvent.data 6),
       TimingNetEvent.packet (TimingEvent.data 7),
       TimingNetEvent.packet (TimingEvent.data 8),
       TimingNetEvent.packet (TimingEvent.eofMarker 9),
       TimingNetEvent.packet (TimingEvent.eofMarker 10)]
      = some
          { message := [0], bitCount := 8, packets := 11,
            elapsed := 9, bps := 8 / 9 }
    ∧ ¬ (32 ≤ 0 ∧ 0 ≤ 126) := by
  constructor
  · norm_num [timing_session, timing_session.go, timing_step, timing_finalize,
      bits_to_message, chunk8, bitsVal, initTiming]
  · decide

/-- Claim C2 as amended: every character of a storage-decoder message is
printable ASCII (code 32–126); the timing decoder only guarantees byte range
(code < 256) — a chunk of low bits yields a non-printable character. -/
theorem decoder_message_ranges :
    (∀ (ttl : Nat) (obs : List Obs) (c : Nat),
        c ∈ (runStream ttl initStorage obs).decoded_bytes →
        32 ≤ c ∧ c ≤ 126)
    ∧ (∀ (bits : List Bool) (c : Nat), c ∈ bits_to_message bits → c < 256) := by
  constructor
  · intro ttl obs c hc
    exact runStream_printable obs ttl initStorage (by simp [initStorage]) c hc
  · intro bits c hc
    simp only [bits_to_message, List.mem_map, List.mem_filter] at hc
    obtain ⟨chunk, ⟨_, hlen⟩, hval⟩ := hc
    have := bitsVal_lt chunk
    rw [decide_eq_true_eq] at hlen
    rw [hlen] at this
    omega

/-- Witness for the amended C2: the character decoded from word 0x4142 lies
in the printable range. -/
theorem decoder_message_ranges_witness :
    32 ≤ 65 ∧ 65 ≤ 126 :=
  decoder_message_ranges.1 42 [⟨0x4142, 42⟩] 65 (by decide)

/-- Claim C4: a storage session finalized with `start_time` unset takes the
"no data received" early return without computing elapsed or throughput and
cannot fail; but a timing session that saw only the two EOF markers and no
data reaches finalization with `start_time = None` and crashes on
`time.time() - None` (modelled by `none`: no report is produced), diverging
from the claim for the timing channel. -/
theorem no_data_finalization :
    (∀ (s : StorageState) (elapsed : ℚ),
        print_results { s with started := false } elapsed
          = StorageResult.noData)
    ∧ timing_session (15 / 100) 10
        [TimingNetEvent.packet (TimingEvent.eofMarker 1),
         TimingNetEvent.packet (TimingEvent.eofMarker 2)]
        = none := by
  constructor
  · intro s elapsed
    simp [print_results]
  · decide

/-- Unfolding lemma for `chunk8` on a nonempty list. -/
theorem chunk8_cons_eq (l : List Bool) (h : l ≠ []) :
    chunk8 l = l.take 8 :: chunk8 (l.drop 8) := by
  cases l with
  | nil => exact absurd rfl h
  | cons b rest => rw [chunk8]

/-- A full leading 8-chunk splits off the front of the chunking. -/
theorem chunk8_append_full (c rest : List Bool) (h : c.length = 8) :
    chunk8 (c ++ rest) = c :: chunk8 rest := by
  have hne : c ++ rest ≠ [] := by
    intro hcontra
    have hlen := congrArg List.length hcontra
    simp [h] at hlen
  rw [chunk8_cons_eq _ hne, List.take_left' h, List.drop_left' h]

/-- A full leading 8-chunk becomes the first decoded character. -/
theorem bits_to_message_append8 (c rest : List Bool) (h : c.length = 8) :
    bits_to_message (c ++ rest) = bitsVal c :: bits_to_message rest := by
  simp [bits_to_message, chunk8_append_full c rest h, h]

/-- Fewer than 8 bits decode to no characters at all. -/
theorem bits_to_message_small (extra : List Bool) (h : extra.length < 8) :
    bits_to_message extra = [] := by
  cases extra with
  | nil => simp [bits_to_message, chunk8]
  | cons b rest =>
    have hne : (b :: rest) ≠ [] := by simp
    have htake : (b :: rest).take 8 = b :: rest :=
      List.take_of_length_le (by omega)
    have hdrop : (b :: rest).drop 8 = [] :=
      List.drop_eq_nil_of_le (by omega)
    have hlen8 : ¬ ((b :: rest).length = 8) := by omega
    have hr7 : ¬ rest.length = 7 := by
      simp only [List.length_cons] at h
      omega
    simp [bits_to_message, chunk8_cons_eq _ hne, htake, hdrop, chunk8, hlen8,
      hr7]

/-- Appending a short trailing chunk to a whole number of 8-chunks does not
change the decoded characters. -/
theorem bits_to_message_append_small :
    ∀ (n : Nat) (bits extra : List Bool), bits.length = n → n % 8 = 0 →
      extra.length < 8 →
      bits_to_message (bits ++ extra) = bits_to_message bits := by
  intro n
  induction n using Nat.strong_induction_on with
  | _ n ih =>
    intro bits extra hlen hmod hsmall
    by_cases h0 : bits = []
    · subst h0
      rw [List.nil_append, bits_to_message_small extra hsmall]
      simp [bits_to_message, chunk8]
    · have hpos : 0 < bits.length := List.length_pos.mpr h0
      have hge : 8 ≤ bits.length := by omega
      have h8 : (bits.take 8).length = 8 := by
        rw [List.length_take]
        omega
      have hsplit : bits.take 8 ++ bits.drop 8 = bits :=
        List.take_append_drop 8 bits
      have hdec : (bits.drop 8).length < n := by
        rw [List.length_drop]
        omega
      have hdmod : (bits.drop 8).length % 8 = 0 := by
        rw [List.length_drop]
        omega
      calc bits_to_message (bits ++ extra)
          = bits_to_message (bits.take 8 ++ (bits.drop 8 ++ extra)) := by
            rw [← List.append_assoc, hsplit]
        _ = bitsVal (bits.take 8) :: bits_to_message (bits.drop 8 ++ extra) :=
            bits_to_message_append8 _ _ h8
        _ = bitsVal (bits.take 8) :: bits_to_message (bits.drop 8) := by
            rw [ih (bits.drop 8).length hdec (bits.drop 8) extra rfl hdmod
              hsmall]
        _ = bits_to_message bits := by
            conv_rhs => rw [← hsplit]
            rw [bits_to_message_append8 _ _ h8]

/-- The decoded character count is the bit count divided by 8. -/
theorem bits_to_message_length :
    ∀ (n : Nat) (bits : List Bool), bits.length = n →
      (bits_to_message bits).length = bits.length / 8 := by
  intro n
  induction n using Nat.strong_induction_on with
  | _ n ih =>
    intro bits hlen
    by_cases hle : 8 ≤ bits.length
    · have h8 : (bits.take 8).length = 8 := by
        rw [List.length_take]
        omega
      have hsplit : bits.take 8 ++ bits.drop 8 = bits :=
        List.take_append_drop 8 bits
      have hdec : (bits.drop 8).length < n := by
        rw [List.length_drop]
        omega
      have hrec := ih (bits.drop 8).length hdec (bits.drop 8) rfl
      rw [List.length_drop] at hrec
      calc (bits_to_message bits).length
          = (bits_to_message (bits.take 8 ++ bits.drop 8)).length := by
            rw [hsplit]
        _ = (bitsVal (bits.take 8) :: bits_to_message (bits.drop 8)).length :=
            by rw [bits_to_message_append8 _ _ h8]
        _ = (bits_to_message (bits.drop 8)).length + 1 := by
            simp
        _ = bits.length / 8 := by
            rw [hrec]
            omega
    · rw [bits_to_message_small bits (by omega)]
      simp
      omega

/-- Claim C9: timing finalization groups the accumulated bits into
consecutive 8-bit chunks most-significant-bit-first, maps each full chunk to
the character with that binary value, discards a short trailing chunk, and
"0100100001100101" decodes to "He" while any 17-bit stream yields exactly
two characters. -/
theorem timing_byte_assembly :
    bits_to_message
        [false, true, false, false, true, false, false, false,
         false, true, true, false, false, true, false, true]
      = [72, 101]
    ∧ (∀ (c rest : List Bool), c.length = 8 →
        bits_to_message (c ++ rest) = bitsVal c :: bits_to_message rest)
    ∧ (∀ (bits extra : List Bool), bits.length % 8 = 0 → extra.length < 8 →
        bits_to_message (bits ++ extra) = bits_to_message bits)
    ∧ (∀ bits : List Bool, (bits_to_message bits).length = bits.length / 8) := by
  refine ⟨?_, ?_, ?_, ?_⟩
  · simp [bits_to_message, chunk8, bitsVal]
  · exact fun c rest h => bits_to_message_append8 c rest h
  · exact fun bits extra hmod hsmall =>
      bits_to_message_append_small bits.length bits extra rfl hmod hsmall
  · exact fun bits => bits_to_message_length bits.length bits rfl

/-- Witness for C9: one full zero chunk followed by a single trailing bit
decodes to the single character `chr 0`. -/
theorem timing_byte_assembly_witness :
    bits_to_message (List.replicate 8 false ++ [true])
      = bits_to_message (List.replicate 8 false)
    ∧ (bits_to_message (List.replicate 17 false)).length
      = (List.replicate 17 false : List Bool).length / 8 :=
  ⟨timing_byte_assembly.2.2.1 (List.replicate 8 false) [true]
      (by decide) (by decide),
   timing_byte_assembly.2.2.2 (List.replicate 17 false)⟩

/-- A data arrival never changes the EOF counter (helper for C3). -/
theorem timing_step_data_eof_count (th t : ℚ) (s : TimingState) :
    (timing_step th s (TimingEvent.data t)).eof_count = s.eof_count := by
  cases hst : s.start_time <;> simp [timing_step, hst]

/-- An exception reached before the second EOF marker aborts
`receive_timing_channel` without any finalization (helper for C3). -/
theorem timing_go_abort :
    ∀ (pre : List TimingEvent) (th now : ℚ) (s : TimingState)
      (x : TimingNetEvent) (post : List TimingNetEvent),
      (x = TimingNetEvent.raisedInterrupt ∨ x = TimingNetEvent.raisedIOError) →
      s.eof_count + pre.countP (fun e =>
        match e with
        | TimingEvent.eofMarker _ => true
        | TimingEvent.data _ => false) < 2 →
      timing_session.go th now s (pre.map TimingNetEvent.packet ++ x :: post)
        = none := by
  intro pre
  induction pre with
  | nil =>
    intro th now s x post hx _
    rcases hx with hx | hx <;> subst hx <;> rfl
  | cons e rest ih =>
    intro th now s x post hx hcount
    cases e with
    | data t =>
      have hcount' : (timing_step th s (TimingEvent.data t)).eof_count
          + rest.countP (fun e =>
              match e with
              | TimingEvent.eofMarker _ => true
              | TimingEvent.data _ => false) < 2 := by
        rw [timing_step_data_eof_count]
        simpa [List.countP_cons] using hcount
      have hno2 : ¬ (2 ≤ (timing_step th s (TimingEvent.data t)).eof_count) :=
        by omega
      simp only [List.map_cons, List.cons_append, timing_session.go, hno2,
        if_false]
      exact ih th now _ x post hx hcount'
    | eofMarker t =>
      have hstep : (timing_step th s (TimingEvent.eofMarker t)).eof_count
          = s.eof_count + 1 := by
        simp [timing_step]
      have hcount' : (timing_step th s (TimingEvent.eofMarker t)).eof_count
          + rest.countP (fun e =>
              match e with
              | TimingEvent.eofMarker _ => true
              | TimingEvent.data _ => false) < 2 := by
        rw [hstep]
        simp [List.countP_cons] at hcount
        omega
      have hno2 : ¬ (2 ≤ (timing_step th s (TimingEvent.eofMarker t)).eof_count) :=
        by omega
      simp only [List.map_cons, List.cons_append, timing_session.go, hno2,
        if_false]
      exact ih th now _ x post hx hcount'

/-- Counterexample to claim C3: a timing session ended by an operator
interrupt produces no finalization report at all — the exception propagates
out of `receive_timing_channel`, which has no handler. -/
theorem timing_no_report_counterexample :
    timing_session 1 1 [TimingNetEvent.raisedInterrupt] = none := rfl

/-- Claim C3 as amended: the storage receiver's `run` catches interrupts,
permission errors and other transport failures and always produces the
finalization outcome over the partial state; the timing receiver has no such
handling — an interrupt or I/O error raised before the second EOF marker
terminates the session with no report over what was decoded. -/
theorem finalize_on_abnormal_ending :
    (∀ (s : StorageState) (e : RunEnding) (elapsed : ℚ),
        storage_run_finalize s e elapsed = some (print_results s elapsed))
    ∧ (∀ (th now : ℚ) (x : TimingNetEvent) (pre : List TimingEvent)
        (post : List TimingNetEvent),
        (x = TimingNetEvent.raisedInterrupt ∨ x = TimingNetEvent.raisedIOError) →
        pre.countP (fun e =>
          match e with
          | TimingEvent.eofMarker _ => true
          | TimingEvent.data _ => false) < 2 →
        timing_session th now (pre.map TimingNetEvent.packet ++ x :: post)
          = none) := by
  constructor
  · intro s e elapsed
    cases e <;> rfl
  · intro th now x pre post hx hcount
    unfold timing_session
    exact timing_go_abort pre th now initTiming x post hx
      (by simpa [initTiming] using hcount)

/-- Witness for the amended C3: a session of one data arrival, one EOF marker
and then an interrupt reports nothing. -/
theorem finalize_on_abnormal_ending_witness :
    timing_session 1 5
      ([TimingEvent.data 0, TimingEvent.eofMarker 1].map TimingNetEvent.packet
        ++ TimingNetEvent.raisedInterrupt :: [])
      = none :=
  finalize_on_abnormal_ending.2 1 5 TimingNetEvent.raisedInterrupt
    [TimingEvent.data 0, TimingEvent.eofMarker 1] [] (Or.inl rfl) (by decide)

end Covert
